import Mathlib

/-!
# Verification of `lsfiles.py`

A shallow embedding of `lsfiles.py` (recursive directory listing sorted by
modification time or size), together with theorems settling the specification
claims about it.

Modelling conventions:
* Python `int` values become `Int` (modification times) or `ℕ` (byte counts,
  which `os.lstat` reports as non-negative).
* A Python `dict` becomes an association list kept in insertion order, with
  `dictInsert` reproducing `d[k] = v` (overwrite keeps the original position,
  fresh keys append at the end), matching Python's documented dict semantics.
* The filesystem is a parameter: `os.walk` is a function from a root to its
  list of `(dirpath, filenames)` triples (the `dirnames` component is unused by
  the program), and `os.lstat` is a function from a call index and a path to a
  `(st_mtime, st_size)` pair.  The call index lets concurrent file changes
  between two `lstat` calls be expressed.
* Python's `list.sort` is modelled by `List.insertionSort`, which is stable
  with the same comparison; on the `(value, key)` tuples the program sorts,
  elements compare equal only when identical, so every correct sort produces
  the same list and the model is extensionally faithful.
* `f"{x:8.2f}"` on `x = numbytes / scale` is modelled by exact rational
  rounding of `numbytes / scale` to centi-units, rounding halves to even
  (Python's float formatting rounds half to even).
-/

namespace LsFiles

/-! ## Decimal rendering of natural numbers (Python `str(n)` and `int(s)`) -/

/-- The decimal digit character for a digit `0 ≤ d ≤ 9`. -/
def digitChar : ℕ → Char
  | 0 => '0'
  | 1 => '1'
  | 2 => '2'
  | 3 => '3'
  | 4 => '4'
  | 5 => '5'
  | 6 => '6'
  | 7 => '7'
  | 8 => '8'
  | 9 => '9'
  | _ => '*'

/-- Numeric value of a decimal digit character. -/
def charVal (c : Char) : ℕ := c.toNat - 48

/-- Little-endian decimal digits of `n`, with explicit fuel for structural
recursion (`fuel ≥ n` suffices). -/
def natDigitsAux : ℕ → ℕ → List ℕ
  | 0, _ => []
  | _ + 1, 0 => []
  | fuel + 1, n + 1 => (n + 1) % 10 :: natDigitsAux fuel ((n + 1) / 10)

/-- Little-endian decimal digits of `n` (empty for `0`). -/
def natDigits (n : ℕ) : List ℕ := natDigitsAux n n

/-- Value of a little-endian decimal digit list. -/
def ofDigits10 : List ℕ → ℕ
  | [] => 0
  | d :: ds => d + 10 * ofDigits10 ds

/-- Decimal string of a natural number, as Python `str` renders a
non-negative `int`. -/
def natStr (n : ℕ) : String :=
  if n = 0 then "0" else String.mk ((natDigits n).reverse.map digitChar)

/-- Parse a decimal string back to a natural number, as Python `int` does on
a plain digit string. -/
def parseNat (s : String) : Option ℕ :=
  if s.data ≠ [] ∧ s.data.all Char.isDigit then
    some (ofDigits10 ((s.data.map charVal).reverse))
  else none

/-! ## Field padding -/

/-- `n` space characters. -/
def spaces (n : ℕ) : String := String.mk (List.replicate n ' ')

/-- Right-justify a string in a field of minimum width 8, as the `8` in
Python's `f"{x:8.2f}"` does. -/
def padLeft8 (s : String) : String := spaces (8 - s.length) ++ s

/-- Left-pad a string with zeros to width `w`. -/
def zfill (w : ℕ) (s : String) : String :=
  String.mk (List.replicate (w - s.length) '0') ++ s

/-- Two-digit zero-padded decimal rendering. -/
def pad2 (n : ℕ) : String := zfill 2 (natStr n)

/-- Four-digit zero-padded decimal rendering. -/
def pad4 (n : ℕ) : String := zfill 4 (natStr n)

/-! ## `human_readable_size` -/

/-- Round `num / den` to the nearest integer, halves to even: the rounding
Python's fixed-point float formatting performs. -/
def rhe (num den : ℕ) : ℕ :=
  let q := num / den
  let r := num % den
  if 2 * r < den then q
  else if den < 2 * r then q + 1
  else if q % 2 = 0 then q else q + 1

/-- Render a count of centi-units `c` as the digits of `c / 100`, a decimal
point, and two decimal digits — the shape of `f"{x:.2f}"` for `x ≥ 0`. -/
def fmtFixed2 (c : ℕ) : String := natStr (c / 100) ++ "." ++ pad2 (c % 100)

/-- `human_readable_size` from `lsfiles.py`:
`numbytes < 1000000` renders as kilobytes, `numbytes < 1000000000` as
megabytes, anything larger as gigabytes; each as `f"{numbytes/scale:8.2f}"`
followed by the unit suffix.  The float division and 2-decimal formatting
are modelled by exact half-to-even rounding of `numbytes·100 / scale`. -/
def human_readable_size (numbytes : ℕ) : String :=
  if numbytes < 1000000 then
    padLeft8 (fmtFixed2 (rhe (numbytes * 100) 1000)) ++ "KB"
  else if numbytes < 1000000000 then
    padLeft8 (fmtFixed2 (rhe (numbytes * 100) 1000000)) ++ "MB"
  else
    padLeft8 (fmtFixed2 (rhe (numbytes * 100) 1000000000)) ++ "GB"

/-! ## The filesystem model -/

/-- The filesystem a run observes.  `walk d` is the list of
`(dirpath, filenames)` pairs `os.walk(d)` yields (the unused `dirnames`
component is omitted); `lstat p` is the `(st_mtime, st_size)` pair of `p`.
`os.walk` with its default `onerror=None` ignores the `scandir` error raised
for a missing or unreadable root and yields nothing, which `walk_missing`
records. -/
structure FileSystem where
  dirExists : String → Bool
  walk : String → List (String × List String)
  lstat : String → Int × ℕ
  walk_missing : ∀ d, dirExists d = false → walk d = []

/-- `os.path.join(a, b)` for one component, POSIX rules: an absolute `b`
replaces `a`; an empty or slash-terminated `a` is concatenated directly;
otherwise a single separator is inserted. -/
def path_join (a b : String) : String :=
  if b.startsWith "/" then b
  else if a = "" then a ++ b
  else if a.endsWith "/" then a ++ b
  else a ++ "/" ++ b

/-- The file paths the nested traversal loops of `get_filedb` construct, in
order: for each directory, for each walk triple, each filename joined onto
its `dirpath`. -/
def walkFiles (walk : String → List (String × List String)) (dirs : List String) :
    List String :=
  dirs.flatMap fun d => (walk d).flatMap fun t => t.2.map (path_join t.1)

/-- `FileDB` models the Python dict `filedb`: an association list in
insertion order from path to `(st_mtime, st_size)`. -/
abbrev FileDB := List (String × (Int × ℕ))

/-- `d[k] = v` on a Python dict: overwriting an existing key keeps its
position, a fresh key is appended at the end. -/
def dictInsert (d : List (String × α)) (k : String) (v : α) : List (String × α) :=
  if d.any fun kv => decide (kv.1 = k) then
    d.map fun kv => if kv.1 = k then (k, v) else kv
  else d ++ [(k, v)]

/-- The body of `get_filedb` over an already-flattened traversal, with the
`lstat` oracle indexed by call number: the file at traversal position `i`
takes its `st_mtime` from call `2·i` and its `st_size` from the separate
call `2·i + 1`, exactly as the two `os.lstat(filepath)` expressions in the
source execute in order. -/
def get_filedb_core (lstat : ℕ → String → Int × ℕ) (paths : List String) : FileDB :=
  paths.enum.foldl
    (fun db ip =>
      dictInsert db ip.2 ((lstat (2 * ip.1) ip.2).1, (lstat (2 * ip.1 + 1) ip.2).2))
    []

/-- `get_filedb` from `lsfiles.py` against a quiescent filesystem (every
`lstat` call on a path returns the same pair). -/
def get_filedb (fs : FileSystem) (dirs : List String) : FileDB :=
  get_filedb_core (fun _ p => fs.lstat p) (walkFiles fs.walk dirs)

/-! ## `keys_sorted_by` -/

/-- Ascending Python tuple order on `(value, key)` pairs. -/
def ascLex (a b : Int × String) : Prop := a.1 < b.1 ∨ (a.1 = b.1 ∧ a.2 ≤ b.2)

/-- Descending Python tuple order on `(value, key)` pairs: what
`list.sort(reverse=True)` arranges consecutive elements by. -/
def descLex (a b : Int × String) : Prop := b.1 < a.1 ∨ (a.1 = b.1 ∧ b.2 ≤ a.2)

instance : DecidableRel ascLex := fun a b => by unfold ascLex; infer_instance

instance : DecidableRel descLex := fun a b => by unfold descLex; infer_instance

instance : IsTotal (Int × String) ascLex where
  total a b := by
    unfold ascLex
    rcases lt_trichotomy a.1 b.1 with h | h | h
    · exact Or.inl (Or.inl h)
    · rcases le_total a.2 b.2 with h2 | h2
      · exact Or.inl (Or.inr ⟨h, h2⟩)
      · exact Or.inr (Or.inr ⟨h.symm, h2⟩)
    · exact Or.inr (Or.inl h)

instance : IsTrans (Int × String) ascLex where
  trans a b c hab hbc := by
    unfold ascLex at *
    rcases hab with h1 | ⟨h1, h1s⟩ <;> rcases hbc with h2 | ⟨h2, h2s⟩
    · exact Or.inl (h1.trans h2)
    · exact Or.inl (h2 ▸ h1)
    · exact Or.inl (h1 ▸ h2)
    · exact Or.inr ⟨h1.trans h2, h1s.trans h2s⟩

instance : IsTotal (Int × String) descLex where
  total a b := by
    unfold descLex
    rcases lt_trichotomy a.1 b.1 with h | h | h
    · exact Or.inr (Or.inl h)
    · rcases le_total a.2 b.2 with h2 | h2
      · exact Or.inr (Or.inr ⟨h.symm, h2⟩)
      · exact Or.inl (Or.inr ⟨h, h2⟩)
    · exact Or.inl (Or.inl h)

instance : IsTrans (Int × String) descLex where
  trans a b c hab hbc := by
    unfold descLex at *
    rcases hab with h1 | ⟨h1, h1s⟩ <;> rcases hbc with h2 | ⟨h2, h2s⟩
    · exact Or.inl (h2.trans h1)
    · exact Or.inl (h2 ▸ h1)
    · exact Or.inl (h1 ▸ h2)
    · exact Or.inr ⟨h1.trans h2, h2s.trans h1s⟩

/-- `keys_sorted_by` from `lsfiles.py`: build `(value, key)` tuples from the
dict (`mtime` or `fsize` as the value; the `ℕ` size is cast to `Int`, which
preserves order and equality), raise `ValueError` for any other key, sort the
tuples (Python's stable sort, modelled by insertion sort — on these tuples
elements compare equal only when identical, so any correct sort agrees), and
return the keys. -/
def keys_sorted_by (value : String) (dictionary : FileDB) (reverse : Bool) :
    Except String (List String) :=
  let pairs : Option (List (Int × String)) :=
    if value = "mtime" then some (dictionary.map fun kv => (kv.2.1, kv.1))
    else if value = "fsize" then some (dictionary.map fun kv => ((kv.2.2 : Int), kv.1))
    else none
  match pairs with
  | none => Except.error "value must be mtime or fsize"
  | some result =>
      let sorted :=
        if reverse then result.insertionSort descLex else result.insertionSort ascLex
      Except.ok (sorted.map fun p => p.2)

/-! ## Time rendering -/

/-- Year, month, day from a count of days since 1970-01-01, by the standard
civil-from-days algorithm (proleptic Gregorian). -/
def civilFromDays (z0 : Int) : Int × ℕ × ℕ :=
  let z := z0 + 719468
  let era : Int := z / 146097
  let doe : ℕ := (z - era * 146097).toNat
  let yoe : ℕ := (doe - doe / 1460 + doe / 36524 - doe / 146096) / 365
  let doy : ℕ := doe - (365 * yoe + yoe / 4 - yoe / 100)
  let mp : ℕ := (5 * doy + 2) / 153
  let d : ℕ := doy - (153 * mp + 2) / 5 + 1
  let m : ℕ := if mp < 10 then mp + 3 else mp - 9
  let y : Int := (yoe : Int) + era * 400 + (if m ≤ 2 then 1 else 0)
  (y, m, d)

/-- A broken-down local time. -/
structure CivilTime where
  year : Int
  month : ℕ
  day : ℕ
  hour : ℕ
  minute : ℕ
  second : ℕ
  wday : ℕ

/-- Break a POSIX timestamp into local civil fields, for a local zone at the
fixed offset `tz` seconds from UTC (DST transitions are not modelled; no
claim depends on the zone). -/
def localCivil (tz t : Int) : CivilTime :=
  let ls := t + tz
  let days := ls / 86400
  let sod : ℕ := (ls - days * 86400).toNat
  let c := civilFromDays days
  { year := c.1, month := c.2.1, day := c.2.2,
    hour := sod / 3600, minute := sod % 3600 / 60, second := sod % 60,
    wday := ((days + 4) % 7).toNat }

/-- `datetime.fromtimestamp(t).isoformat()` for an integer timestamp: a naive
local datetime rendered as `YYYY-MM-DDTHH:MM:SS` — seconds precision (the
microsecond field of an integer timestamp is 0, so no fractional part is
emitted) and no timezone designator (the datetime carries no `tzinfo`).
Years outside `1..9999`, where `datetime` itself raises, are rendered from
`year.toNat` rather than modelled as errors. -/
def isoformat (tz t : Int) : String :=
  let c := localCivil tz t
  pad4 c.year.toNat ++ "-" ++ pad2 c.month ++ "-" ++ pad2 c.day ++ "T" ++
    pad2 c.hour ++ ":" ++ pad2 c.minute ++ ":" ++ pad2 c.second

/-- Weekday abbreviations, Sunday first (1970-01-01 was a Thursday, index 4). -/
def weekdayNames : List String := ["Sun", "Mon", "Tue", "Wed", "Thu", "Fri", "Sat"]

/-- Month abbreviations. -/
def monthNames : List String :=
  ["Jan", "Feb", "Mar", "Apr", "May", "Jun", "Jul", "Aug", "Sep", "Oct", "Nov", "Dec"]

/-- Day-of-month in a 2-wide space-padded field, as `ctime` renders it. -/
def padSpace2 (n : ℕ) : String := if n < 10 then " " ++ natStr n else natStr n

/-- `time.ctime(t)`: `Wed Jun  9 04:26:40 1993`-style local time. -/
def ctime (tz t : Int) : String :=
  let c := localCivil tz t
  weekdayNames.getD c.wday "" ++ " " ++ monthNames.getD (c.month - 1) "" ++ " " ++
    padSpace2 c.day ++ " " ++ pad2 c.hour ++ ":" ++ pad2 c.minute ++ ":" ++
    pad2 c.second ++ " " ++ natStr c.year.toNat

/-! ## `main` -/

/-- `filedb[filename]`.  `main` only indexes keys returned by
`keys_sorted_by`, which are keys of `filedb`, so the `KeyError` branch is
unreachable and a default pair stands in for it. -/
def lookupDB (db : FileDB) (k : String) : Int × ℕ := (List.lookup k db).getD (0, 0)

/-- One output line of `main` for `filename`: time field, space, size field,
space, the path exactly as constructed. -/
def renderLine (human : Bool) (tz : Int) (db : FileDB) (filename : String) : String :=
  let mv := lookupDB db filename
  let time_str := if human then ctime tz mv.1 else isoformat tz mv.1
  let size_str := if human then human_readable_size mv.2 else natStr mv.2
  time_str ++ " " ++ size_str ++ " " ++ filename

/-- `main` from `lsfiles.py` after argument parsing: build the FileDB, pick
the sort key (`fsize` under `--bysize`, else `mtime`), sort descending, and
print one line per path.  The result is the list of printed lines;
`Except.error` marks an uncaught exception, which makes the process exit
non-zero, while `Except.ok` exits zero. -/
def mainRun (fs : FileSystem) (dirs : List String) (human bysize : Bool) (tz : Int) :
    Except String (List String) :=
  let filedb := get_filedb fs dirs
  let sort_key := if bysize then "fsize" else "mtime"
  (keys_sorted_by sort_key filedb true).map fun keys =>
    keys.map (renderLine human tz filedb)

/-! ## Helpers for the claim statements -/

/-- The sort-key string `main` selects: `fsize` under `--bysize`, else
`mtime`. -/
def sortKeyOf (bysize : Bool) : String := if bysize then "fsize" else "mtime"

/-- The value of the chosen sort key for the path `p` of a FileDB. -/
def sortVal (bysize : Bool) (db : FileDB) (p : String) : Int :=
  let mv := lookupDB db p
  if bysize then (mv.2 : Int) else mv.1

/-- The `(value, key)` tuple `keys_sorted_by` builds from one dict entry,
for either sort key. -/
def pairOf (bysize : Bool) (kv : String × (Int × ℕ)) : Int × String :=
  (if bysize then (kv.2.2 : Int) else kv.2.1, kv.1)

/-- The unit scale `human_readable_size` divides by. -/
def hrScale (n : ℕ) : ℕ :=
  if n < 1000000 then 1000 else if n < 1000000000 then 1000000 else 1000000000

/-- The unit name `human_readable_size` appends. -/
def hrUnit (n : ℕ) : String :=
  if n < 1000000 then "KB" else if n < 1000000000 then "MB" else "GB"

/-- The displayed value of `human_readable_size n` in centi-units. -/
def hrCenti (n : ℕ) : ℕ := rhe (n * 100) (hrScale n)

/-! ## Spec-side rendering of sizes

The next three definitions transcribe the specification sentence for the
human-readable size field rather than the source: the field is the byte
count divided by the decimal unit (1000-based), shown with 2 decimals,
right-justified to a minimum width of 8, with the unit appended after. -/

/-- Round an exact rational to centi-units, halves to even. -/
def round2Q (q : ℚ) : ℤ :=
  let f : ℤ := ⌊q * 100⌋
  let r : ℚ := q * 100 - f
  if r < 1 / 2 then f
  else if 1 / 2 < r then f + 1
  else if f % 2 = 0 then f else f + 1

/-- Render a non-negative rational with exactly 2 decimals. -/
def fmt2Q (q : ℚ) : String := fmtFixed2 (round2Q q).toNat

/-- The human-readable size field as the specification sentence describes
it, over exact rational arithmetic. -/
def human_readable_size_spec (n : ℕ) : String :=
  if n < 1000000 then padLeft8 (fmt2Q ((n : ℚ) / 1000)) ++ "KB"
  else if n < 1000000000 then padLeft8 (fmt2Q ((n : ℚ) / 1000000)) ++ "MB"
  else padLeft8 (fmt2Q ((n : ℚ) / 1000000000)) ++ "GB"

/-! ## Concrete fixtures -/

/-- A filesystem with no directories at all: every walk yields nothing, as
`os.walk` does on a nonexistent root. -/
def fsEmpty : FileSystem where
  dirExists := fun _ => false
  walk := fun _ => []
  lstat := fun _ => (0, 0)
  walk_missing := fun _ _ => rfl

/-- An `lstat` trace in which the file changes between two consecutive
calls: the first call observes `(mtime 1, size 100)`, every later call
observes `(mtime 2, size 200)`. -/
def lstatRace : ℕ → String → Int × ℕ :=
  fun n _ => if n = 0 then (1, 100) else (2, 200)

/-- A two-entry FileDB with distinct sort-key values. -/
def dbExample : FileDB := [("a", (5, 10)), ("b", (3, 20))]

/-- A two-entry FileDB whose entries tie on modification time. -/
def dbTie : FileDB := [("a", (5, 10)), ("b", (5, 20))]

/-- The characters an ISO-8601 naive local datetime may contain: decimal
digits and the three separators.  Notably neither `Z` nor `+` — no timezone
designator. -/
def isoChar (c : Char) : Prop := c.isDigit = true ∨ c = '-' ∨ c = 'T' ∨ c = ':'

/-! ## Lemmas: decimal strings -/

theorem mem_natDigitsAux_lt {fuel n d : ℕ} (h : d ∈ natDigitsAux fuel n) : d < 10 := by
  induction fuel generalizing n with
  | zero => simp [natDigitsAux] at h
  | succ fuel ih =>
    cases n with
    | zero => simp [natDigitsAux] at h
    | succ m =>
      simp only [natDigitsAux, List.mem_cons] at h
      rcases h with h | h
      · subst h
        exact Nat.mod_lt _ (by norm_num)
      · exact ih h

theorem ofDigits10_natDigitsAux :
    ∀ fuel n, n ≤ fuel → ofDigits10 (natDigitsAux fuel n) = n := by
  intro fuel
  induction fuel with
  | zero =>
    intro n hn
    interval_cases n
    simp [natDigitsAux, ofDigits10]
  | succ fuel ih =>
    intro n hn
    cases n with
    | zero => simp [natDigitsAux, ofDigits10]
    | succ m =>
      have hdiv : (m + 1) / 10 ≤ fuel := by
        have := Nat.div_lt_self (Nat.succ_pos m) (by norm_num : 1 < 10)
        omega
      simp only [natDigitsAux, ofDigits10, ih _ hdiv]
      omega

theorem digitChar_isDigit {d : ℕ} (h : d < 10) : (digitChar d).isDigit = true := by
  interval_cases d <;> decide

theorem charVal_digitChar {d : ℕ} (h : d < 10) : charVal (digitChar d) = d := by
  interval_cases d <;> decide

theorem natStr_data_digits {n : ℕ} {c : Char} (h : c ∈ (natStr n).data) :
    c.isDigit = true := by
  unfold natStr at h
  split at h
  · have h0 : ("0" : String).data = ['0'] := rfl
    rw [h0] at h
    simp only [List.mem_singleton] at h
    subst h
    decide
  · have hmk : (String.mk ((natDigits n).reverse.map digitChar)).data =
        (natDigits n).reverse.map digitChar := rfl
    rw [hmk] at h
    simp only [List.mem_map, List.mem_reverse] at h
    obtain ⟨d, hd, rfl⟩ := h
    exact digitChar_isDigit (mem_natDigitsAux_lt hd)

theorem natStr_data_ne_nil (n : ℕ) : (natStr n).data ≠ [] := by
  unfold natStr
  split
  · intro h
    exact absurd h (by decide)
  · rename_i hn
    obtain ⟨m, rfl⟩ := Nat.exists_eq_succ_of_ne_zero hn
    have hmk : (String.mk ((natDigits (m + 1)).reverse.map digitChar)).data =
        (natDigits (m + 1)).reverse.map digitChar := rfl
    rw [hmk]
    simp only [ne_eq, List.map_eq_nil_iff, List.reverse_eq_nil_iff]
    simp [natDigits, natDigitsAux]

theorem parseNat_natStr (n : ℕ) : parseNat (natStr n) = some n := by
  unfold parseNat
  rw [if_pos]
  · congr 1
    by_cases hn : n = 0
    · subst hn
      rfl
    · have hmk : (natStr n).data = (natDigits n).reverse.map digitChar := by
        unfold natStr
        rw [if_neg hn]
      rw [hmk]
      rw [List.map_map, ← List.map_reverse, List.reverse_reverse]
      have hcongr : (natDigits n).map (charVal ∘ digitChar) = (natDigits n).map id := by
        apply List.map_congr_left
        intro d hd
        exact charVal_digitChar (mem_natDigitsAux_lt hd)
      rw [hcongr, List.map_id]
      exact ofDigits10_natDigitsAux n n le_rfl
  · constructor
    · exact natStr_data_ne_nil n
    · rw [List.all_eq_true]
      intro c hc
      exact natStr_data_digits hc

theorem zfill_length (w : ℕ) (s : String) : (zfill w s).length = max w s.length := by
  have hrep : (String.mk (List.replicate (w - s.length) '0')).length = w - s.length :=
    List.length_replicate _ _
  have : (zfill w s).length = (w - s.length) + s.length := by
    rw [zfill, String.length_append, hrep]
  omega

theorem natDigitsAux_length {fuel n k : ℕ} (h : n < 10 ^ k) :
    (natDigitsAux fuel n).length ≤ k := by
  induction fuel generalizing n k with
  | zero => simp [natDigitsAux]
  | succ fuel ih =>
    cases n with
    | zero => simp [natDigitsAux]
    | succ m =>
      cases k with
      | zero => omega
      | succ k =>
        have hdiv : (m + 1) / 10 < 10 ^ k := by
          rw [Nat.div_lt_iff_lt_mul (by norm_num : 0 < 10)]
          calc m + 1 < 10 ^ (k + 1) := h
            _ = 10 ^ k * 10 := by ring
        simpa [natDigitsAux] using ih hdiv

theorem natStr_length_le {n k : ℕ} (hk : 1 ≤ k) (h : n < 10 ^ k) :
    (natStr n).length ≤ k := by
  unfold natStr
  split
  · simpa [String.length] using hk
  · have : (String.mk ((natDigits n).reverse.map digitChar)).length =
        (natDigits n).length := by
      simp [String.length]
    rw [this]
    exact natDigitsAux_length h

theorem pad2_length {n : ℕ} (h : n < 100) : (pad2 n).length = 2 := by
  have h2 := natStr_length_le (n := n) (k := 2) (by norm_num) (by norm_num; omega)
  rw [pad2, zfill_length]
  omega

theorem pad2_data_digits {n : ℕ} {c : Char} (h : c ∈ (pad2 n).data) :
    c.isDigit = true := by
  simp only [pad2, zfill, String.data_append] at h
  rcases List.mem_append.mp h with h | h
  · have : c = '0' := List.eq_of_mem_replicate h
    subst this
    decide
  · exact natStr_data_digits h

theorem pad4_data_digits {n : ℕ} {c : Char} (h : c ∈ (pad4 n).data) :
    c.isDigit = true := by
  simp only [pad4, zfill, String.data_append] at h
  rcases List.mem_append.mp h with h | h
  · have : c = '0' := List.eq_of_mem_replicate h
    subst this
    decide
  · exact natStr_data_digits h

/-! ## Lemmas: half-to-even rounding -/

theorem rhe_abs_le (num den : ℕ) (hden : den ≠ 0) :
    2 * ((rhe num den : ℤ) * den - num).natAbs ≤ den := by
  obtain ⟨q, r, hr, rfl⟩ : ∃ q r, r < den ∧ den * q + r = num :=
    ⟨num / den, num % den, Nat.mod_lt _ (Nat.pos_of_ne_zero hden),
      Nat.div_add_mod num den⟩
  have hq : (den * q + r) / den = q := by
    rw [Nat.mul_add_div (Nat.pos_of_ne_zero hden), Nat.div_eq_of_lt hr, Nat.add_zero]
  have hm : (den * q + r) % den = r := by
    rw [Nat.mul_add_mod, Nat.mod_eq_of_lt hr]
  simp only [rhe, hq, hm]
  split_ifs with h1 h2 h3
  · have e : ((q : ℤ)) * den - ((den * q + r : ℕ) : ℤ) = -(r : ℤ) := by push_cast; ring
    rw [e]; omega
  · have e : (((q + 1 : ℕ)) : ℤ) * den - ((den * q + r : ℕ) : ℤ) = (den : ℤ) - r := by
      push_cast; ring
    rw [e]; omega
  · have e : ((q : ℤ)) * den - ((den * q + r : ℕ) : ℤ) = -(r : ℤ) := by push_cast; ring
    rw [e]; omega
  · have e : (((q + 1 : ℕ)) : ℤ) * den - ((den * q + r : ℕ) : ℤ) = (den : ℤ) - r := by
      push_cast; ring
    rw [e]; omega

theorem round2Q_div (n s : ℕ) (hs : s ≠ 0) :
    round2Q ((n : ℚ) / s) = (rhe (n * 100) s : ℤ) := by
  have hs0 : (0 : ℚ) < s := by exact_mod_cast Nat.pos_of_ne_zero hs
  have hmul : ((n : ℚ) / s) * 100 = ((n * 100 : ℕ) : ℚ) / s := by push_cast; ring
  have hfloor : ⌊((n : ℚ) / s) * 100⌋ = ((n * 100) / s : ℕ) := by
    rw [hmul]
    have hcast : ((n * 100 : ℕ) : ℚ) = (((n * 100 : ℕ) : ℤ) : ℚ) := by push_cast; ring
    rw [hcast, Rat.floor_intCast_div_natCast]
    omega
  have hdm : (s : ℚ) * ((n * 100) / s : ℕ) + ((n * 100) % s : ℕ) = ((n * 100 : ℕ) : ℚ) := by
    exact_mod_cast Nat.div_add_mod (n * 100) s
  have hfract : ((n : ℚ) / s) * 100 - ((((n * 100) / s : ℕ)) : ℚ) =
      ((n * 100) % s : ℕ) / (s : ℚ) := by
    rw [hmul, eq_div_iff (ne_of_gt hs0), sub_mul, div_mul_cancel₀ _ (ne_of_gt hs0)]
    push_cast at hdm ⊢
    linarith
  have hhalf_lt : (((n * 100) % s : ℕ) / (s : ℚ) < 1 / 2) ↔ (2 * ((n * 100) % s) < s) := by
    rw [div_lt_div_iff₀ hs0 (by norm_num : (0 : ℚ) < 2), one_mul]
    rw [show ((((n * 100) % s : ℕ)) : ℚ) * 2 = ((2 * ((n * 100) % s) : ℕ) : ℚ) by
      push_cast; ring]
    exact Nat.cast_lt
  have hhalf_gt : ((1 : ℚ) / 2 < (((n * 100) % s : ℕ)) / (s : ℚ)) ↔ (s < 2 * ((n * 100) % s)) := by
    rw [div_lt_div_iff₀ (by norm_num : (0 : ℚ) < 2) hs0, one_mul]
    rw [show ((((n * 100) % s : ℕ)) : ℚ) * 2 = ((2 * ((n * 100) % s) : ℕ) : ℚ) by
      push_cast; ring]
    exact Nat.cast_lt
  have hpar : ((((n * 100) / s : ℕ) : ℤ) % 2 = 0) ↔ (((n * 100) / s) % 2 = 0) := by omega
  simp only [round2Q, hfloor, Int.cast_natCast, hfract, hhalf_lt, hhalf_gt, hpar, rhe]
  split_ifs <;> push_cast <;> ring

theorem hrs_eq_spec (n : ℕ) : human_readable_size n = human_readable_size_spec n := by
  unfold human_readable_size human_readable_size_spec fmt2Q
  split_ifs with h1 h2
  · rw [show (1000 : ℚ) = ((1000 : ℕ) : ℚ) by norm_num,
      round2Q_div n 1000 (by norm_num), Int.toNat_natCast]
  · rw [show (1000000 : ℚ) = ((1000000 : ℕ) : ℚ) by norm_num,
      round2Q_div n 1000000 (by norm_num), Int.toNat_natCast]
  · rw [show (1000000000 : ℚ) = ((1000000000 : ℕ) : ℚ) by norm_num,
      round2Q_div n 1000000000 (by norm_num), Int.toNat_natCast]

theorem hrs_decompose (n : ℕ) :
    human_readable_size n = padLeft8 (fmtFixed2 (hrCenti n)) ++ hrUnit n := by
  unfold human_readable_size hrCenti hrScale hrUnit
  split_ifs <;> rfl

theorem rhe_rat_close (n s : ℕ) (hs : s ≠ 0) :
    |(rhe (n * 100) s : ℚ) / 100 * s - n| ≤ 5 / 1000 * s := by
  have key := rhe_abs_le (n * 100) s hs
  have e : (rhe (n * 100) s : ℚ) / 100 * s - n =
      ((((rhe (n * 100) s : ℤ)) * s - ((n * 100 : ℕ) : ℤ) : ℤ) : ℚ) / 100 := by
    push_cast; ring
  rw [e, abs_div, abs_of_pos (by norm_num : (0 : ℚ) < 100),
    div_le_iff₀ (by norm_num : (0 : ℚ) < 100)]
  rw [← Int.cast_abs]
  have habs : ((rhe (n * 100) s : ℤ) * s - ((n * 100 : ℕ) : ℤ)).natAbs * 2 ≤ s := by omega
  have habsq : ((|((rhe (n * 100) s : ℤ)) * s - ((n * 100 : ℕ) : ℤ)| : ℤ) : ℚ) * 2 ≤ s := by
    rw [Int.abs_eq_natAbs]
    exact_mod_cast habs
  linarith

/-! ## Lemmas: dict lookup -/

theorem lookup_eq_of_mem {db : FileDB} {p : String} {v : Int × ℕ}
    (hnd : (db.map Prod.fst).Nodup) (hmem : (p, v) ∈ db) :
    List.lookup p db = some v := by
  induction db with
  | nil => simp at hmem
  | cons kv t ih =>
    obtain ⟨k, w⟩ := kv
    simp only [List.map_cons, List.nodup_cons] at hnd
    rcases List.mem_cons.mp hmem with h | h
    · obtain ⟨rfl, rfl⟩ := Prod.mk.injEq .. |>.mp h
      simp [List.lookup]
    · have hpk : p ≠ k := by
        intro he
        subst he
        exact hnd.1 (List.mem_map.mpr ⟨(p, v), h, rfl⟩)
      have hbeq : (p == k) = false := beq_eq_false_iff_ne.mpr hpk
      simp only [List.lookup, hbeq]
      exact ih hnd.2 h

theorem replace_keys_eq (d : List (String × α)) (k : String) (v : α) :
    ((d.map fun kv => if kv.1 = k then (k, v) else kv).map Prod.fst) = d.map Prod.fst := by
  rw [List.map_map]
  apply List.map_congr_left
  intro kv _
  by_cases hkv : kv.1 = k
  · simp [hkv]
  · simp [hkv]

theorem any_key_iff {d : List (String × α)} {k : String} :
    (d.any fun kv => decide (kv.1 = k)) = true ↔ k ∈ d.map Prod.fst := by
  rw [List.any_eq_true]
  constructor
  · rintro ⟨kv, hkv, hd⟩
    exact List.mem_map.mpr ⟨kv, hkv, of_decide_eq_true hd⟩
  · rintro h
    obtain ⟨kv, hkv, rfl⟩ := List.mem_map.mp h
    exact ⟨kv, hkv, by simp⟩

theorem mem_keys_dictInsert {d : List (String × α)} {k q : String} {v : α} :
    q ∈ (dictInsert d k v).map Prod.fst ↔ q ∈ d.map Prod.fst ∨ q = k := by
  unfold dictInsert
  split
  · rename_i h
    rw [replace_keys_eq]
    constructor
    · exact Or.inl
    · rintro (h1 | rfl)
      · exact h1
      · exact any_key_iff.mp h
  · rw [List.map_append]
    simp

theorem keys_nodup_dictInsert {d : List (String × α)} {k : String} {v : α}
    (hnd : (d.map Prod.fst).Nodup) : ((dictInsert d k v).map Prod.fst).Nodup := by
  unfold dictInsert
  split
  · rw [replace_keys_eq]
    exact hnd
  · rename_i h
    rw [List.map_append]
    rw [List.nodup_append]
    refine ⟨hnd, by simp, ?_⟩
    intro q hq
    simp only [List.map_cons, List.map_nil, List.mem_singleton]
    intro he
    subst he
    exact absurd (any_key_iff.mpr hq) (by simpa using h)

theorem lookup_replace {d : List (String × α)} {k : String} (v : α)
    (h : k ∈ d.map Prod.fst) :
    List.lookup k (d.map fun kv => if kv.1 = k then (k, v) else kv) = some v := by
  induction d with
  | nil => simp at h
  | cons kv t ih =>
    obtain ⟨k1, w⟩ := kv
    by_cases hk : k1 = k
    · rw [List.map_cons, if_pos hk, List.lookup_cons]
      simp
    · have hbeq : (k == k1) = false :=
        beq_eq_false_iff_ne.mpr (fun he => hk he.symm)
      rw [List.map_cons, if_neg hk, List.lookup_cons, hbeq]
      apply ih
      simp only [List.map_cons, List.mem_cons] at h
      rcases h with h | h
      · exact absurd h.symm hk
      · exact h

theorem lookup_append_single {d : List (String × α)} {k : String} (v : α)
    (h : k ∉ d.map Prod.fst) :
    List.lookup k (d ++ [(k, v)]) = some v := by
  induction d with
  | nil => simp [List.lookup]
  | cons kv t ih =>
    obtain ⟨k1, w⟩ := kv
    have hk : k1 ≠ k := by
      intro he
      exact h (by simp [he])
    have hbeq : (k == k1) = false :=
      beq_eq_false_iff_ne.mpr (fun he => hk he.symm)
    rw [List.cons_append, List.lookup_cons, hbeq]
    exact ih fun hm => h (by simp [hm])

theorem lookup_dictInsert_self (d : List (String × α)) (k : String) (v : α) :
    List.lookup k (dictInsert d k v) = some v := by
  unfold dictInsert
  split
  · rename_i h
    exact lookup_replace v (any_key_iff.mp h)
  · rename_i h
    exact lookup_append_single v fun hm => h (any_key_iff.mpr hm)

/-! ## Lemmas: `keys_sorted_by` -/

theorem keys_sorted_by_mtime (db : FileDB) :
    keys_sorted_by "mtime" db true =
      Except.ok (((db.map (pairOf false)).insertionSort descLex).map Prod.snd) := rfl

theorem keys_sorted_by_fsize (db : FileDB) :
    keys_sorted_by "fsize" db true =
      Except.ok (((db.map (pairOf true)).insertionSort descLex).map Prod.snd) := rfl

theorem keys_sorted_by_invalid {value : String} (db : FileDB) (reverse : Bool)
    (h1 : value ≠ "mtime") (h2 : value ≠ "fsize") :
    keys_sorted_by value db reverse = Except.error "value must be mtime or fsize" := by
  unfold keys_sorted_by
  rw [if_neg h1, if_neg h2]

theorem keys_sorted_by_eq (db : FileDB) (bysize : Bool) :
    keys_sorted_by (sortKeyOf bysize) db true =
      Except.ok (((db.map (pairOf bysize)).insertionSort descLex).map Prod.snd) := by
  cases bysize
  · exact keys_sorted_by_mtime db
  · exact keys_sorted_by_fsize db

theorem sortVal_of_mem_pairs {db : FileDB} {bysize : Bool} {v : Int} {p : String}
    (hnd : (db.map Prod.fst).Nodup)
    (h : (v, p) ∈ db.map (pairOf bysize)) : sortVal bysize db p = v := by
  simp only [List.mem_map, pairOf] at h
  obtain ⟨kv, hkv, heq⟩ := h
  obtain ⟨hv, hp⟩ := Prod.mk.injEq .. |>.mp heq
  subst hv
  subst hp
  have hlk : List.lookup kv.1 db = some kv.2 :=
    lookup_eq_of_mem hnd (by simpa using hkv)
  unfold sortVal lookupDB
  rw [hlk]
  rfl

theorem pairs_map_snd (db : FileDB) (bysize : Bool) :
    (db.map (pairOf bysize)).map Prod.snd = db.map Prod.fst := by
  rw [List.map_map]
  rfl

theorem sorted_keys_perm (db : FileDB) (bysize : Bool) :
    List.Perm (((db.map (pairOf bysize)).insertionSort descLex).map Prod.snd)
      (db.map Prod.fst) := by
  have h1 := (List.perm_insertionSort descLex (db.map (pairOf bysize))).map Prod.snd
  rw [pairs_map_snd] at h1
  exact h1

/-! ## Lemmas: building the FileDB -/

theorem enumFrom_append (n : ℕ) (l1 l2 : List α) :
    List.enumFrom n (l1 ++ l2) =
      List.enumFrom n l1 ++ List.enumFrom (n + l1.length) l2 := by
  induction l1 generalizing n with
  | nil => simp
  | cons a t ih =>
    have h1 : List.enumFrom n (a :: (t ++ l2)) = (n, a) :: List.enumFrom (n + 1) (t ++ l2) := rfl
    have h2 : List.enumFrom n (a :: t) = (n, a) :: List.enumFrom (n + 1) t := rfl
    rw [List.cons_append, h1, h2, ih, List.length_cons, List.cons_append,
      show n + (t.length + 1) = n + 1 + t.length by omega]

theorem foldl_dict_keys_mem (g : ℕ × String → Int × ℕ) (ps : List (ℕ × String)) :
    ∀ (d : FileDB) (q : String),
      (q ∈ (ps.foldl (fun db ip => dictInsert db ip.2 (g ip)) d).map Prod.fst ↔
        q ∈ d.map Prod.fst ∨ q ∈ ps.map Prod.snd) := by
  induction ps with
  | nil => simp
  | cons ip t ih =>
    intro d q
    rw [List.foldl_cons, ih, mem_keys_dictInsert]
    simp only [List.map_cons, List.mem_cons]
    tauto

theorem foldl_dict_keys_nodup (g : ℕ × String → Int × ℕ) (ps : List (ℕ × String)) :
    ∀ d : FileDB, (d.map Prod.fst).Nodup →
      ((ps.foldl (fun db ip => dictInsert db ip.2 (g ip)) d).map Prod.fst).Nodup := by
  induction ps with
  | nil => exact fun d h => h
  | cons ip t ih =>
    intro d hd
    rw [List.foldl_cons]
    exact ih _ (keys_nodup_dictInsert hd)

theorem get_filedb_core_keys_nodup (lstat : ℕ → String → Int × ℕ) (paths : List String) :
    ((get_filedb_core lstat paths).map Prod.fst).Nodup := by
  unfold get_filedb_core
  exact foldl_dict_keys_nodup _ _ [] (by simp)

theorem mem_keys_get_filedb_core (lstat : ℕ → String → Int × ℕ) (paths : List String)
    (q : String) :
    q ∈ (get_filedb_core lstat paths).map Prod.fst ↔ q ∈ paths := by
  unfold get_filedb_core
  rw [foldl_dict_keys_mem]
  simp [List.enum_eq_enumFrom, List.enumFrom_map_snd]

theorem get_filedb_keys_nodup (fs : FileSystem) (dirs : List String) :
    ((get_filedb fs dirs).map Prod.fst).Nodup :=
  get_filedb_core_keys_nodup _ _

theorem mem_keys_get_filedb (fs : FileSystem) (dirs : List String) (q : String) :
    q ∈ (get_filedb fs dirs).map Prod.fst ↔ q ∈ walkFiles fs.walk dirs :=
  mem_keys_get_filedb_core _ _ _

/-! ## Lemmas: the pipeline of `main` -/

theorem keys_sorted_by_valid_ok (value : String) (db : FileDB) (reverse : Bool)
    (h : value = "mtime" ∨ value = "fsize") :
    ∃ l, keys_sorted_by value db reverse = Except.ok l := by
  simp only [keys_sorted_by]
  rcases h with rfl | rfl
  · rw [if_pos rfl]
    exact ⟨_, rfl⟩
  · rw [if_neg (by decide), if_pos rfl]
    exact ⟨_, rfl⟩

theorem mainRun_isOk (fs : FileSystem) (dirs : List String) (human bysize : Bool)
    (tz : Int) : (mainRun fs dirs human bysize tz).isOk = true := by
  obtain ⟨l, hl⟩ := keys_sorted_by_valid_ok (sortKeyOf bysize) (get_filedb fs dirs) true
    (by cases bysize; exact Or.inl rfl; exact Or.inr rfl)
  unfold sortKeyOf at hl
  simp only [mainRun]
  rw [hl]
  rfl

/-! ## Lemmas: time rendering -/

theorem localCivil_time_bounds (tz t : Int) :
    (localCivil tz t).hour < 24 ∧ (localCivil tz t).minute < 60 ∧
      (localCivil tz t).second < 60 := by
  unfold localCivil
  dsimp only
  refine ⟨?_, ?_, ?_⟩ <;> omega

theorem append_isoChar {s t : String} (hs : ∀ c ∈ s.data, isoChar c)
    (ht : ∀ c ∈ t.data, isoChar c) : ∀ c ∈ (s ++ t).data, isoChar c := by
  intro c hc
  rw [String.data_append] at hc
  rcases List.mem_append.mp hc with h | h
  · exact hs c h
  · exact ht c h

theorem pad4_isoChar (n : ℕ) : ∀ c ∈ (pad4 n).data, isoChar c :=
  fun _ hc => Or.inl (pad4_data_digits hc)

theorem pad2_isoChar (n : ℕ) : ∀ c ∈ (pad2 n).data, isoChar c :=
  fun _ hc => Or.inl (pad2_data_digits hc)

theorem isoformat_isoChar (tz t : Int) : ∀ c ∈ (isoformat tz t).data, isoChar c := by
  unfold isoformat
  have hsingle : ∀ (d : Char), isoChar d → ∀ c ∈ [d], isoChar c := by
    intro d hd c hc
    rw [List.mem_singleton] at hc
    rwa [hc]
  have hdash : ∀ c ∈ ("-" : String).data, isoChar c :=
    hsingle '-' (Or.inr (Or.inl rfl))
  have hT : ∀ c ∈ ("T" : String).data, isoChar c :=
    hsingle 'T' (Or.inr (Or.inr (Or.inl rfl)))
  have hcolon : ∀ c ∈ (":" : String).data, isoChar c :=
    hsingle ':' (Or.inr (Or.inr (Or.inr rfl)))
  exact append_isoChar (append_isoChar (append_isoChar (append_isoChar
    (append_isoChar (append_isoChar (append_isoChar (append_isoChar
      (append_isoChar (append_isoChar (pad4_isoChar _) hdash) (pad2_isoChar _))
        hdash) (pad2_isoChar _)) hT) (pad2_isoChar _)) hcolon)
          (pad2_isoChar _)) hcolon) (pad2_isoChar _)

theorem isoformat_shape (tz t : Int) :
    ∃ ds hh mm ss : String,
      isoformat tz t = ds ++ "T" ++ (hh ++ ":" ++ mm ++ ":" ++ ss) ∧
      hh.length = 2 ∧ mm.length = 2 ∧ ss.length = 2 ∧
      ∀ c ∈ (isoformat tz t).data, isoChar c := by
  obtain ⟨hh24, hm60, hs60⟩ := localCivil_time_bounds tz t
  refine ⟨pad4 (localCivil tz t).year.toNat ++ "-" ++ pad2 (localCivil tz t).month ++
      "-" ++ pad2 (localCivil tz t).day,
    pad2 (localCivil tz t).hour, pad2 (localCivil tz t).minute,
    pad2 (localCivil tz t).second, ?_, ?_, ?_, ?_, isoformat_isoChar tz t⟩
  · unfold isoformat
    simp [String.append_assoc]
  · exact pad2_length (by omega)
  · exact pad2_length (by omega)
  · exact pad2_length (by omega)

/-! ## The claims -/

/-- C1 (counterexample): a run whose only directory argument does not exist
produces zero output lines but exits ZERO with no error — `os.walk` silently
swallows the scandir failure — contradicting the claimed non-zero exit with
a `TraversalError`. -/
theorem missing_dir_exits_zero :
    fsEmpty.dirExists "missing" = false ∧
    mainRun fsEmpty ["missing"] false false 0 = Except.ok [] := by
  constructor
  · rfl
  · rfl

/-- C1 (amended): a directory argument that does not exist or is not
traversable yields no walk entries and is silently skipped: the run behaves
exactly as if the argument were absent, and the program still exits zero
(the result is `Except.ok`).  There is no failure of the whole operation. -/
theorem missing_dir_silently_skipped (fs : FileSystem) (d : String)
    (dirs : List String) (human bysize : Bool) (tz : Int)
    (h : fs.dirExists d = false) :
    mainRun fs (d :: dirs) human bysize tz = mainRun fs dirs human bysize tz ∧
    (mainRun fs (d :: dirs) human bysize tz).isOk = true := by
  have hw : fs.walk d = [] := fs.walk_missing d h
  have hwf : walkFiles fs.walk (d :: dirs) = walkFiles fs.walk dirs := by
    simp [walkFiles, hw]
  have hdb : get_filedb fs (d :: dirs) = get_filedb fs dirs := by
    unfold get_filedb
    rw [hwf]
  refine ⟨?_, mainRun_isOk _ _ _ _ _⟩
  unfold mainRun
  rw [hdb]

/-- Witness for the amended C1 at a concrete filesystem. -/
theorem missing_dir_silently_skipped_witness :
    fsEmpty.dirExists "missing" = false ∧
    (mainRun fsEmpty ("missing" :: []) false false 0 = mainRun fsEmpty [] false false 0 ∧
      (mainRun fsEmpty ("missing" :: []) false false 0).isOk = true) :=
  ⟨rfl, missing_dir_silently_skipped fsEmpty "missing" [] false false 0 rfl⟩

/-- C2 (counterexample): with an `lstat` trace that changes between the two
calls the source makes per file, the recorded `(mtime, size)` pair `(1, 200)`
mixes the mtime of the first snapshot with the size of the second and equals
NO point-in-time snapshot the trace ever returned — refuting the claim that
the pair is read atomically via a single metadata query. -/
theorem race_entry_not_a_snapshot :
    List.lookup "f" (get_filedb_core lstatRace ["f"]) = some (1, 200) ∧
    ∀ k : ℕ, lstatRace k "f" ≠ (1, 200) := by
  constructor
  · rfl
  · intro k
    cases k with
    | zero => decide
    | succ m => simp [lstatRace]

/-- C2 (amended): each file's metadata is read by TWO separate `lstat`
calls: the stored modification time comes from the first call and the stored
size from the second, so the pair need not be a single atomic snapshot. -/
theorem two_lstat_calls_per_file (lstat : ℕ → String → Int × ℕ) (p : String) :
    get_filedb_core lstat [p] = [(p, ((lstat 0 p).1, (lstat 1 p).2))] := by
  simp [get_filedb_core, dictInsert]

/-- C3: for every FileDB (with the paths unique, as every FileDB the
traversal builds has) and either sort key, the reported sequence is a
permutation of all paths of the FileDB and every emitted record's key value
is ≥ the next record's. -/
theorem sorted_descending_by_key (db : FileDB) (bysize : Bool)
    (hnd : (db.map Prod.fst).Nodup) :
    ∃ l, keys_sorted_by (sortKeyOf bysize) db true = Except.ok l ∧
      List.Perm l (db.map Prod.fst) ∧
      l.Pairwise (fun p q => sortVal bysize db q ≤ sortVal bysize db p) := by
  refine ⟨_, keys_sorted_by_eq db bysize, sorted_keys_perm db bysize, ?_⟩
  have hs := List.sorted_insertionSort descLex (db.map (pairOf bysize))
  rw [List.pairwise_map]
  refine List.Pairwise.imp_of_mem ?_ hs
  intro a b ha hb hab
  have ha2 : a ∈ db.map (pairOf bysize) := (List.mem_insertionSort descLex).mp ha
  have hb2 : b ∈ db.map (pairOf bysize) := (List.mem_insertionSort descLex).mp hb
  obtain ⟨va, pa⟩ := a
  obtain ⟨vb, pb⟩ := b
  have hva := sortVal_of_mem_pairs hnd ha2
  have hvb := sortVal_of_mem_pairs hnd hb2
  show sortVal bysize db pb ≤ sortVal bysize db pa
  rw [hva, hvb]
  rcases hab with h | ⟨h, _⟩
  · exact le_of_lt h
  · exact le_of_eq h.symm

/-- Witness for C3 at a concrete FileDB. -/
theorem sorted_descending_by_key_witness :
    (dbExample.map Prod.fst).Nodup ∧
    (∃ l, keys_sorted_by (sortKeyOf false) dbExample true = Except.ok l ∧
      List.Perm l (dbExample.map Prod.fst) ∧
      l.Pairwise (fun p q => sortVal false dbExample q ≤ sortVal false dbExample p)) :=
  ⟨by decide, sorted_descending_by_key dbExample false (by decide)⟩

/-- C4: for every run, the output has one line per FileDB entry, the
reported paths are pairwise distinct, and a path is reported exactly when
the traversal constructed it — every discovered path appears exactly once
and nothing else appears. -/
theorem every_discovered_path_once (fs : FileSystem) (dirs : List String)
    (human bysize : Bool) (tz : Int) :
    ∃ l, keys_sorted_by (sortKeyOf bysize) (get_filedb fs dirs) true = Except.ok l ∧
      mainRun fs dirs human bysize tz =
        Except.ok (l.map (renderLine human tz (get_filedb fs dirs))) ∧
      l.Nodup ∧
      (∀ p, p ∈ l ↔ p ∈ walkFiles fs.walk dirs) ∧
      (l.map (renderLine human tz (get_filedb fs dirs))).length =
        (get_filedb fs dirs).length := by
  refine ⟨_, keys_sorted_by_eq _ bysize, ?_, ?_, ?_, ?_⟩
  · simp only [mainRun]
    have h := keys_sorted_by_eq (get_filedb fs dirs) bysize
    unfold sortKeyOf at h
    rw [h]
    rfl
  · exact (sorted_keys_perm _ bysize).nodup_iff.mpr (get_filedb_keys_nodup fs dirs)
  · intro p
    rw [(sorted_keys_perm _ bysize).mem_iff, mem_keys_get_filedb]
  · rw [List.length_map, (sorted_keys_perm _ bysize).length_eq, List.length_map]

/-- C5: `human_readable_size` renders exactly as the specification sentence
prescribes — 1000-based units with the stated thresholds, two decimals,
right-justified to minimum width 8, suffix appended — and the two example
byte counts render as stated. -/
theorem human_size_matches_spec :
    (∀ n : ℕ, human_readable_size n = human_readable_size_spec n) ∧
    human_readable_size 500 = "    0.50KB" ∧
    human_readable_size 2500000 = "    2.50MB" :=
  ⟨hrs_eq_spec, by decide, by decide⟩

/-- C6: the non-human size field (the decimal rendering of the byte count)
parses back to exactly the raw size, and the value displayed by the
human-readable field times its unit multiplier is within ±0.005 of the
displayed unit of the raw size. -/
theorem size_field_roundtrip :
    ∀ n : ℕ, parseNat (natStr n) = some n ∧
      human_readable_size n = padLeft8 (fmtFixed2 (hrCenti n)) ++ hrUnit n ∧
      |(hrCenti n : ℚ) / 100 * (hrScale n) - n| ≤ 5 / 1000 * (hrScale n) := by
  intro n
  refine ⟨parseNat_natStr n, hrs_decompose n, ?_⟩
  unfold hrCenti hrScale
  split_ifs
  · exact rhe_rat_close n 1000 (by norm_num)
  · exact rhe_rat_close n 1000000 (by norm_num)
  · exact rhe_rat_close n 1000000000 (by norm_num)

/-- C7: `keys_sorted_by` succeeds exactly on the two valid sort keys and
raises `ValueError` (the contract-violation error) on every other value. -/
theorem invalid_sort_key_rejected (value : String) (db : FileDB) (reverse : Bool) :
    ((keys_sorted_by value db reverse).isOk = true ↔
      (value = "mtime" ∨ value = "fsize")) ∧
    (keys_sorted_by value db reverse = Except.error "value must be mtime or fsize" ↔
      ¬(value = "mtime" ∨ value = "fsize")) := by
  by_cases h : value = "mtime" ∨ value = "fsize"
  · obtain ⟨l, hl⟩ := keys_sorted_by_valid_ok value db reverse h
    rw [hl]
    exact ⟨⟨fun _ => h, fun _ => rfl⟩,
      ⟨fun he => absurd he (by simp), fun hn => absurd h hn⟩⟩
  · push_neg at h
    rw [keys_sorted_by_invalid db reverse h.1 h.2]
    refine ⟨⟨fun hok => ?_, fun hv => ?_⟩, ⟨fun _ => ?_, fun _ => rfl⟩⟩
    · exact absurd hok (by simp [Except.isOk, Except.toBool])
    · rcases hv with rfl | rfl
      · exact absurd rfl h.1
      · exact absurd rfl h.2
    · rintro (rfl | rfl)
      · exact h.1 rfl
      · exact h.2 rfl

/-- C8: whenever the traversal produces the same constructed path a second
time, the FileDB keeps exactly the metadata pair of the later read — the
entry for a path revisited at the end of the traversal holds the values of
the final pair of `lstat` calls. -/
theorem later_read_overwrites (lstat : ℕ → String → Int × ℕ)
    (paths : List String) (p : String) :
    List.lookup p (get_filedb_core lstat (paths ++ [p])) =
      some ((lstat (2 * paths.length) p).1, (lstat (2 * paths.length + 1) p).2) := by
  unfold get_filedb_core
  rw [List.enum_eq_enumFrom, enumFrom_append, List.foldl_append]
  rw [show List.enumFrom (0 + paths.length) ([p] : List String) =
    [(paths.length, p)] by simp [List.enumFrom]]
  rw [List.foldl_cons, List.foldl_nil]
  exact lookup_dictInsert_self _ _ _

/-- C9: in non-human mode every emitted line is the ISO time field, one
space, the decimal size field, one space, and the path exactly as
constructed; there is one line per record and no trailing summary line; the
time field is a local ISO-8601 string with seconds precision and no
timezone designator. -/
theorem line_layout_iso_time (fs : FileSystem) (dirs : List String)
    (bysize : Bool) (tz : Int) :
    ∃ l, keys_sorted_by (sortKeyOf bysize) (get_filedb fs dirs) true = Except.ok l ∧
      mainRun fs dirs false bysize tz =
        Except.ok (l.map fun p =>
          isoformat tz (lookupDB (get_filedb fs dirs) p).1 ++ " " ++
            natStr (lookupDB (get_filedb fs dirs) p).2 ++ " " ++ p) ∧
      (∀ t : Int, ∃ ds hh mm ss : String,
        isoformat tz t = ds ++ "T" ++ (hh ++ ":" ++ mm ++ ":" ++ ss) ∧
        hh.length = 2 ∧ mm.length = 2 ∧ ss.length = 2 ∧
        ∀ c ∈ (isoformat tz t).data, isoChar c) := by
  refine ⟨_, keys_sorted_by_eq _ bysize, ?_, fun t => isoformat_shape tz t⟩
  simp only [mainRun]
  have h := keys_sorted_by_eq (get_filedb fs dirs) bysize
  unfold sortKeyOf at h
  rw [h]
  rfl

/-- C10: the sort is deterministic including ties — records whose key
values are exactly equal appear in descending lexicographic order of their
path strings, because the sort compares whole `(key, path)` tuples in
reverse. -/
theorem ties_descending_path_order (db : FileDB) (bysize : Bool)
    (hnd : (db.map Prod.fst).Nodup) :
    ∃ l, keys_sorted_by (sortKeyOf bysize) db true = Except.ok l ∧
      l.Pairwise (fun p q => sortVal bysize db p = sortVal bysize db q → q ≤ p) := by
  refine ⟨_, keys_sorted_by_eq db bysize, ?_⟩
  have hs := List.sorted_insertionSort descLex (db.map (pairOf bysize))
  rw [List.pairwise_map]
  refine List.Pairwise.imp_of_mem ?_ hs
  intro a b ha hb hab
  have ha2 : a ∈ db.map (pairOf bysize) := (List.mem_insertionSort descLex).mp ha
  have hb2 : b ∈ db.map (pairOf bysize) := (List.mem_insertionSort descLex).mp hb
  obtain ⟨va, pa⟩ := a
  obtain ⟨vb, pb⟩ := b
  have hva := sortVal_of_mem_pairs hnd ha2
  have hvb := sortVal_of_mem_pairs hnd hb2
  intro hv
  rw [hva, hvb] at hv
  rcases hab with h | ⟨_, h⟩
  · rw [hv] at h
    exact absurd h (lt_irrefl _)
  · exact h

/-- Witness for C10 at a FileDB with a modification-time tie. -/
theorem ties_descending_path_order_witness :
    (dbTie.map Prod.fst).Nodup ∧
    (∃ l, keys_sorted_by (sortKeyOf false) dbTie true = Except.ok l ∧
      l.Pairwise (fun p q => sortVal false dbTie p = sortVal false dbTie q → q ≤ p)) :=
  ⟨by decide, ties_descending_path_order dbTie false (by decide)⟩

end LsFiles
